import Mathlib

/-!
Verification development for the gitoxide tree-diff rewrite tracker
(`gix/src/object/tree/diff/tracked.rs`, `rewrites.rs`), the commit-pair
diffing pipeline (`experiments/diffing/src/main.rs`) and the pathspec
long-keyword parser (`git-pathspec/src/parse.rs`).

The Rust code is embedded shallowly: machine integers become `Nat`,
`f32` similarity percentages become `ℚ`, byte strings become `List Nat`,
fallible or panicking code returns `Option`/`Except`.  Callback
invocations are instrumented with ghost records (the arguments passed to
the callback plus, for rename calls, the item vector before and at the
call); the control flow of the embedded functions is exactly that of the
source.
-/

namespace Gitoxide

/-- Modelled from the spec (§3; `gix-object` is outside `src/`):
the entry mode of a tree entry. -/
inductive EntryMode where
  | tree
  | blob
  | blobExecutable
  | link
  | commit
deriving DecidableEq

/-- Modelled from the spec (§3; `gix-object` is outside `src/`):
`is_blob()` is true for Blob, BlobExecutable, Symlink. -/
def EntryMode.is_blob : EntryMode → Bool
  | .blob => true
  | .blobExecutable => true
  | .link => true
  | _ => false

/-- Modelled from the spec (§3; `gix_diff::tree::visit::Change` is outside
`src/`): the raw change variants. -/
inductive Change where
  | addition (entry_mode : EntryMode) (oid : Nat)
  | deletion (entry_mode : EntryMode) (oid : Nat)
  | modification (previous_entry_mode : EntryMode) (previous_oid : Nat)
      (entry_mode : EntryMode) (oid : Nat)
deriving DecidableEq

/-- Modelled from the spec: `Change::oid()` returns the current-side object
id of the change. -/
def Change.oid : Change → Nat
  | .addition _ oid => oid
  | .deletion _ oid => oid
  | .modification _ _ _ oid => oid

/-- Modelled from the spec: `Change::oid_and_mode()` returns the
current-side id and entry mode. -/
def Change.oid_and_mode : Change → Nat × EntryMode
  | .addition m oid => (oid, m)
  | .deletion m oid => (oid, m)
  | .modification _ _ m oid => (oid, m)

/-- `matches!(change, Change::Addition { .. })`. -/
def Change.isAddition : Change → Bool
  | .addition _ _ => true
  | _ => false

/-- `matches!(change, Change::Deletion { .. })`. -/
def Change.isDeletion : Change → Bool
  | .deletion _ _ => true
  | _ => false

/-- `matches!(change, Change::Modification { .. })`. -/
def Change.isModification : Change → Bool
  | .modification _ _ _ _ => true
  | _ => false

/-- Modelled from the spec (§4.1; `gix_diff::tree::visit::Action` is outside
`src/`): the visitor / rewrite-callback verdict. -/
inductive Action where
  | Continue
  | Cancel
deriving DecidableEq

/-- `tracked.rs` `Item`: a tracked change plus the slice of the shared
path backing that holds its path, and the emitted flag.  The `Range<usize>`
is a start/end pair of indices. -/
structure Item where
  change : Change
  location : Nat × Nat
  emitted : Bool
deriving DecidableEq

/-- `Item::location(&self, backing)`: the path bytes `backing[range]`. -/
def Item.locationIn (self : Item) (backing : List Nat) : List Nat :=
  (backing.drop self.location.1).take (self.location.2 - self.location.1)

/-- `rewrites.rs` `CopySource`. -/
inductive CopySource where
  | FromSetOfChangedFiles
deriving DecidableEq

/-- `rewrites.rs` `Copies`. -/
structure Copies where
  source : CopySource
  percentage : Option ℚ
deriving DecidableEq

/-- The `Rewrites` configuration as consumed by `tracked.rs` and defaulted
by `rewrites.rs` (the struct declaration itself lives outside `src/`; fields
per the spec §3 `RewriteConfig`).  `percentage` is an `f32` in the source,
modelled exactly in `ℚ`. -/
structure Rewrites where
  copies : Option Copies
  percentage : Option ℚ
  limit : Nat
deriving DecidableEq

/-- `impl Default for Rewrites` (rewrites.rs lines 36-44):
`copies = None`, `percentage = Some(0.5)`, `limit = 1000`. -/
def Rewrites.default : Rewrites :=
  { copies := none, percentage := some (mkRat 1 2), limit := 1000 }

/-- `tracked.rs` `State`. -/
structure State where
  items : List Item
  path_backing : List Nat
  rewrites : Rewrites
deriving DecidableEq

/-- `State::new`. -/
def State.new (renames : Rewrites) : State :=
  { items := [], path_backing := [], rewrites := renames }

/-- `tracked.rs` `visit::Kind`. -/
inductive Kind where
  | RenameTarget
deriving DecidableEq

/-- `visit::Kind::can_use_change`: `RenameTarget` accepts only deletions. -/
def Kind.can_use_change : Kind → Change → Bool
  | .RenameTarget, c => c.isDeletion

/-- `tracked.rs` `visit::Source`. -/
structure Source where
  mode : EntryMode
  id : Nat
  kind : Kind
  location : List Nat
deriving DecidableEq

/-- `tracked.rs` `visit::Destination`. -/
structure Destination where
  change : Change
  location : List Nat
deriving DecidableEq

/-- Modelled from the spec (§6; the object database and the line-level blob
differ are external capabilities): `lineTokens id` is the number of line
tokens of the blob `id` (`platform.line_tokens()` lengths), and
`removals old new` is the removal count reported by
`gix_diff::blob::diff` with the `Counter` sink.  Both are total: object
fetch failures are outside the scope of the embedded claims. -/
structure Repository where
  lineTokens : Nat → Nat
  removals : Nat → Nat → Nat

/-- `needs_exact_match` (tracked.rs lines 267-269):
`percentage.map_or(true, |p| p >= 1.0)`. -/
def needs_exact_match (percentage : Option ℚ) : Bool :=
  match percentage with
  | none => true
  | some p => decide (1 ≤ p)

/-- `try_push_change` (tracked.rs lines 153-175).  Returns the declined
change (and the unchanged state), or `none` with the path bytes appended
to `path_backing` and a new unemitted item stored. -/
def try_push_change (s : State) (change : Change) (location : List Nat) :
    Option Change × State :=
  if !change.oid_and_mode.2.is_blob then (some change, s)
  else
    let keep :=
      match s.rewrites.copies, change with
      | some _, _ => true
      | none, .modification _ _ _ _ => false
      | none, _ => true
    if !keep then (some change, s)
    else
      let start := s.path_backing.length
      let backing := s.path_backing ++ location
      (none,
        { s with
          path_backing := backing,
          items := s.items ++
            [{ change := change, location := (start, backing.length), emitted := false }] })

/-- `slice::partition_point` as used in `find_match` (tracked.rs line 89):
the index of the first element not satisfying `pred`.  The standard-library
binary search coincides with this on partitioned slices; the call site only
ever sees the item vector sorted by `emit`'s comparator, which partitions it
for the predicate `a.change.oid() < item_id`. -/
def partition_point (pred : Item → Bool) (items : List Item) : Nat :=
  (items.takeWhile pred).length

/-- The linear `find` of the identity pass (tracked.rs lines 104-106):
scan the oid-equal slice, with `i` the index *relative to the slice*
(`enumerate` starts at 0).  The predicate compensates
(`*src_idx + range.start != item_idx`) but the found pair is returned
unchanged, so the returned index is the relative one, exactly as in the
source. -/
def find_src (slice : List Item) (range_start item_idx : Nat) (kind : Kind) :
    Nat → Option (Nat × Item)
  | i =>
    match slice with
    | [] => none
    | src :: rest =>
      if (i + range_start != item_idx) && !src.emitted && kind.can_use_change src.change then
        some (i, src)
      else find_src rest range_start item_idx kind (i + 1)

/-- `Iterator::position` (tracked.rs lines 91-95): the index of the first
element satisfying `pred`. -/
def position (pred : Item → Bool) : List Item → Option Nat
  | [] => none
  | a :: t => if pred a then some 0 else (position pred t).map (· + 1)

/-- Pass A of `find_match` (tracked.rs lines 88-109): binary-search the
oid-equal range, then linearly pick the first usable candidate.
`some res` models an early `return Ok(res)` from the pass (`res = none` for
the empty-range `return Ok(None)`), `none` models falling through to the
rest of the `for similarity in [None, percentage]` loop. -/
def identity_pass (items : List Item) (item : Item) (item_idx : Nat) (kind : Kind) :
    Option (Option (Nat × Item)) :=
  let item_id := item.change.oid
  let first_idx := partition_point (fun a => decide (a.change.oid < item_id)) items
  if first_idx ≤ items.length then
    let stop :=
      match position (fun a => decide (a.change.oid ≠ item_id)) (items.drop first_idx) with
      | some idx => first_idx + idx
      | none => items.length
    if stop ≤ first_idx then some none
    else
      match find_src ((items.drop first_idx).take (stop - first_idx)) first_idx item_idx kind 0 with
      | some res => some (some res)
      | none => none
  else some none

/-- The similarity score of tracked.rs lines 130-134:
`(|tokens.before| - removals) / max(|tokens.before|, |tokens.after|)`,
where `before` tokenises the candidate source blob and `after` the
destination blob (`Platform { old: src_obj, new: object }`).  The `usize`
subtraction is modelled by truncated subtraction; the external differ
reports at most `|before|` removals.  The `f32` quotient is modelled as an
exact rational (`mkRat num den`, definitionally the cast quotient
`num / den` in `ℚ`; see `similarity_eq_scoreSpec`). -/
def similarity (repo : Repository) (item src : Item) : ℚ :=
  mkRat ((repo.lineTokens src.change.oid -
      repo.removals src.change.oid item.change.oid : Nat) : Int)
    (max (repo.lineTokens src.change.oid) (repo.lineTokens item.change.oid))

/-- Pass B of `find_match` (tracked.rs lines 110-140): linearly scan all
candidates (absolute `enumerate` index this time), filter the usable ones,
and accept the first whose similarity reaches `percentage`. -/
def similarity_pass (repo : Repository) (item : Item) (item_idx : Nat) (percentage : ℚ)
    (kind : Kind) : List Item → Nat → Option (Nat × Item)
  | [], _ => none
  | src :: rest, can_idx =>
    if (can_idx != item_idx) && !src.emitted && kind.can_use_change src.change then
      if percentage ≤ similarity repo item src then some (can_idx, src)
      else similarity_pass repo item item_idx percentage kind rest (can_idx + 1)
    else similarity_pass repo item item_idx percentage kind rest (can_idx + 1)

/-- `State::find_match` (tracked.rs lines 78-147): the
`for similarity in [None, percentage]` loop.  The first iteration always
runs the identity pass; when `percentage` is `None` the loop breaks, and
otherwise the second iteration either repeats the identity pass (when
`percentage >= 1.0`) or runs the similarity pass. -/
def find_match (items : List Item) (item : Item) (item_idx : Nat) (percentage : Option ℚ)
    (kind : Kind) (repo : Repository) : Option (Nat × Item) :=
  match identity_pass items item item_idx kind with
  | some res => res
  | none =>
    match percentage with
    | none => none
    | some p =>
      if needs_exact_match (some p) then
        match identity_pass items item item_idx kind with
        | some res => res
        | none => none
      else similarity_pass repo item item_idx p kind items 0

/-- The comparator of `emit`'s `sort_by` (tracked.rs lines 187-194):
oid, then `location.start`, then `location.end`. -/
def item_cmp (a b : Item) : Ordering :=
  (compare a.change.oid b.change.oid).then
    ((compare a.location.1 b.location.1).then (compare a.location.2 b.location.2))

/-- The total preorder induced by `item_cmp` (`a` sorts no later than `b`). -/
def item_le (a b : Item) : Prop := item_cmp a b ≠ Ordering.gt

instance : DecidableRel item_le := fun a b =>
  inferInstanceAs (Decidable (item_cmp a b ≠ Ordering.gt))

/-- `self.items.sort_by(...)`: Rust's stable sort by `item_cmp`, embedded as
a stable insertion sort — for a total preorder, stability and sortedness
determine the output uniquely. -/
def sortItems (items : List Item) : List Item := List.insertionSort item_le items

/-- `self.items[idx].emitted = true`. -/
def setEmitted : List Item → Nat → List Item
  | [], _ => []
  | it :: rest, 0 => { it with emitted := true } :: rest
  | it :: rest, n + 1 => it :: setEmitted rest n

/-- The destination search of `find_renames` (tracked.rs lines 225-227):
first unemitted `Addition` at absolute index `≥ dest_ofs`. -/
def findDestFrom : List Item → Nat → Option (Nat × Item)
  | [], _ => none
  | it :: rest, i =>
    if !it.emitted && it.change.isAddition then some (i, it)
    else findDestFrom rest (i + 1)

/-- `self.items[dest_ofs..] ... find_map` with the `dest_idx += dest_ofs`
adjustment applied. -/
def findDest (items : List Item) (dest_ofs : Nat) : Option (Nat × Item) :=
  findDestFrom (items.drop dest_ofs) dest_ofs

/-- Building the `visit::Source` for a matched source item
(tracked.rs lines 238-251). -/
def mkSource (src : Item) (backing : List Nat) : Source :=
  { mode := src.change.oid_and_mode.2, id := src.change.oid_and_mode.1,
    kind := Kind.RenameTarget, location := src.locationIn backing }

/-- Building the `visit::Destination` for an item. -/
def mkDestination (it : Item) (backing : List Nat) : Destination :=
  { change := it.change, location := it.locationIn backing }

/-- Ghost record of one rewrite-callback invocation inside `find_renames`:
the arguments passed to `cb`, the indices used to set the emitted flags,
and the item vector before the iteration (`preItems`) and at the moment of
the call (`itemsAtCall`). -/
structure CallRecord where
  preItems : List Item
  itemsAtCall : List Item
  destIdx : Nat
  srcIdx : Option Nat
  dest : Destination
  src : Option Source
deriving DecidableEq

/-- Ghost record of one callback invocation in the drain phase: the
(sorted-vector) index of the drained item and the destination argument. -/
structure DrainRecord where
  idx : Nat
  dest : Destination
deriving DecidableEq

/-- Result of `find_renames`: the item vector with updated emitted flags,
the callback invocations, the next callback ordinal, and the action that
ended the phase. -/
structure RenamesResult where
  items : List Item
  records : List CallRecord
  next_cnt : Nat
  action : Action
deriving DecidableEq

/-- The `while let` loop of `State::find_renames` (tracked.rs lines
224-262).  `cb` takes the invocation ordinal first (modelling a stateful
`FnMut` callback).  `fuel` only bounds the iteration count; every
iteration advances `dest_ofs` past the found destination, so
`items.length + 1` fuel is never exhausted. -/
def find_renames_loop (repo : Repository) (rw : Rewrites)
    (cb : Nat → Destination → Option Source → Action) (backing : List Nat) :
    Nat → List Item → Nat → Nat → RenamesResult
  | 0, items, _, cnt => ⟨items, [], cnt, Action.Continue⟩
  | fuel + 1, items, dest_ofs, cnt =>
    match findDest items dest_ofs with
    | none => ⟨items, [], cnt, Action.Continue⟩
    | some (dest_idx, dest) =>
      let srcRes := find_match items dest dest_idx rw.percentage Kind.RenameTarget repo
      let srcEvt := srcRes.map fun p => mkSource p.2 backing
      let destEvt := mkDestination dest backing
      let items1 := setEmitted items dest_idx
      let items2 :=
        match srcRes with
        | some (src_idx, _) => setEmitted items1 src_idx
        | none => items1
      let rec0 : CallRecord :=
        { preItems := items, itemsAtCall := items2, destIdx := dest_idx,
          srcIdx := srcRes.map Prod.fst, dest := destEvt, src := srcEvt }
      match cb cnt destEvt srcEvt with
      | Action.Cancel => ⟨items2, [rec0], cnt + 1, Action.Cancel⟩
      | Action.Continue =>
        let r := find_renames_loop repo rw cb backing fuel items2 (dest_idx + 1) (cnt + 1)
        ⟨r.items, rec0 :: r.records, r.next_cnt, r.action⟩

/-- `State::find_renames` on an item vector (already sorted by `emit`). -/
def find_renames (repo : Repository) (rw : Rewrites)
    (cb : Nat → Destination → Option Source → Action) (backing : List Nat)
    (items : List Item) (cnt : Nat) : RenamesResult :=
  find_renames_loop repo rw cb backing (items.length + 1) items 0 cnt

/-- The drain loop of `emit` (tracked.rs lines 203-214):
`self.items.drain(..).filter(|item| !item.emitted)`, stopping the callback
on `Cancel` (the vector is emptied regardless, as `Drain` drops the rest). -/
def drain_loop (cb : Nat → Destination → Option Source → Action) (backing : List Nat) :
    List Item → Nat → Nat → List DrainRecord × Nat
  | [], _, cnt => ([], cnt)
  | it :: rest, i, cnt =>
    if it.emitted then drain_loop cb backing rest (i + 1) cnt
    else
      let d := mkDestination it backing
      match cb cnt d none with
      | Action.Cancel => ([⟨i, d⟩], cnt + 1)
      | Action.Continue =>
        let r := drain_loop cb backing rest (i + 1) (cnt + 1)
        (⟨i, d⟩ :: r.1, r.2)

/-- Result of a completed `emit`: the ghost callback traces of the rename
and drain phases and the final tracker state. -/
structure EmitResult where
  rename_records : List CallRecord
  drain_records : List DrainRecord
  final : State
deriving DecidableEq

/-- `State::emit` (tracked.rs lines 182-216): sort, find renames (an early
`Cancel` still returns `Ok(())`), then — copy tracking being
`todo!("copy tracking")`, modelled as `none` (a panic) — drain the
unemitted remainder.  `some` models the `Ok(())` return. -/
def emit (s : State) (cb : Nat → Destination → Option Source → Action)
    (repo : Repository) : Option EmitResult :=
  let items := sortItems s.items
  let r := find_renames repo s.rewrites cb s.path_backing items 0
  if r.action = Action.Cancel then
    some { rename_records := r.records, drain_records := [],
           final := { s with items := r.items } }
  else
    match s.rewrites.copies with
    | some _ => none
    | none =>
      let d := drain_loop cb s.path_backing r.items 0 r.next_cnt
      some { rename_records := r.records, drain_records := d.1,
             final := { s with items := [] } }

/-! ## The commit-pair diffing pipeline (`experiments/diffing/src/main.rs`) -/

/-- `commits.windows(2)`: the adjacent commit pairs, in order. -/
def windows2 : List Nat → List (Nat × Nat)
  | a :: b :: rest => (a, b) :: windows2 (b :: rest)
  | _ => []

/-- Modelled from the spec (§3 invariants: the differ is deterministic;
`git_diff::tree`'s walker is outside `src/`): one commit pair's tree diff
with the counting `Count` visitor is a pure function of the pair. -/
def PairDiffer := (Nat × Nat) → Nat

/-- `do_gitoxide_tree_diff`, `Computation::SingleThreaded` branch
(main.rs lines 301-324): fold the per-pair change counts over
`commits.windows(2)` in order. -/
def do_gitoxide_tree_diff_single (diff_pair : PairDiffer) (commits : List Nat) : Nat :=
  (windows2 commits).foldl (fun changes pair => changes + diff_pair pair) 0

/-- `do_gitoxide_tree_diff`, `Computation::MultiThreaded` branch
(main.rs lines 271-300): the workers process the same pairs and
`fetch_add` their counts into one atomic counter; `order` is the
nondeterministic completion order, a permutation of the pair list. -/
def do_gitoxide_tree_diff_parallel (diff_pair : PairDiffer)
    (order : List (Nat × Nat)) : Nat :=
  order.foldl (fun changes pair => changes + diff_pair pair) 0

/-- The decoded-object payload handed around by the pipeline's caches:
`(kind, data)` as in `ObjectInfo { kind, data }`. -/
abbrev ObjectInfo := Nat × List Nat

/-- The per-worker object cache, keyed by `Nat`
(`HashMap<Nat, (Kind, Vec<u8>)>`, modelled as an association list). -/
abbrev ObjCache := List (Nat × ObjectInfo)

/-- `find_with_obj_cache` (main.rs lines 127-149): `Occupied` returns the
cached copy, `Vacant` falls through to the database and inserts on
success. -/
def find_with_obj_cache (db : Nat → Option ObjectInfo) (oid : Nat)
    (obj_cache : ObjCache) : Option ObjectInfo × ObjCache :=
  match obj_cache.lookup oid with
  | none =>
    match db oid with
    | some obj => (some obj, (oid, obj) :: obj_cache)
    | none => (none, obj_cache)
  | some obj => (some obj, obj_cache)

/-! ## The pathspec long-keyword parser (`git-pathspec/src/parse.rs`) -/

/-- Modelled from the git-pathspec crate (the bitflags declaration is
outside `src/parse.rs`): the `MagicSignature` flags TOP, ICASE, EXCLUDE. -/
structure MagicSignature where
  top : Bool
  icase : Bool
  exclude : Bool
deriving DecidableEq

/-- `MagicSignature::empty()`. -/
def MagicSignature.empty : MagicSignature := ⟨false, false, false⟩

/-- `SearchMode`; the default is `ShellGlob`. -/
inductive SearchMode where
  | ShellGlob
  | Literal
  | PathAwareGlob
deriving DecidableEq

/-- The `parse.rs` `Error` variants reachable from the long-keyword
parser. -/
inductive PathspecError where
  | InvalidKeyword (keyword : List Nat)
  | MissingClosingParenthesis
  | InvalidAttribute (attrName : List Nat)
  | InvalidAttributeValue (character : Nat)
  | TrailingEscapeCharacter
  | EmptyAttribute
  | MultipleAttributeSpecifications
  | IncompatibleSearchModes
deriving DecidableEq

/-- `Pattern` (fields touched by `parse_long_keywords`; attributes are the
opaque result of the external `git_attributes` parser). -/
structure Pattern where
  path : List Nat
  signature : MagicSignature
  search_mode : SearchMode
  attributes : List Nat
deriving DecidableEq

/-- ASCII bytes of `"attr"`. -/
def kwAttr : List Nat := [97, 116, 116, 114]

/-- ASCII bytes of `"top"`. -/
def kwTop : List Nat := [116, 111, 112]

/-- ASCII bytes of `"icase"`. -/
def kwIcase : List Nat := [105, 99, 97, 115, 101]

/-- ASCII bytes of `"exclude"`. -/
def kwExclude : List Nat := [101, 120, 99, 108, 117, 100, 101]

/-- ASCII bytes of `"literal"`. -/
def kwLiteral : List Nat := [108, 105, 116, 101, 114, 97, 108]

/-- ASCII bytes of `"glob"`. -/
def kwGlob : List Nat := [103, 108, 111, 98]

/-- ASCII bytes of `"attr:"`. -/
def kwAttrColon : List Nat := [97, 116, 116, 114, 58]

/-- ASCII bytes of `"prefix:"`. -/
def kwPrefixColon : List Nat := [112, 114, 101, 102, 105, 120, 58]

/-- One arm of the keyword `match` in `parse_long_keywords` (parse.rs lines
97-125).  `pa` is the external attribute parser
(`parse_attributes`, which delegates to `git_attributes`, outside the
embedded core).  The `prefix:` arm is the source's empty
`// TODO: Needs research` arm. -/
def parse_keyword (pa : List Nat → Except PathspecError (List Nat)) (p : Pattern)
    (keyword : List Nat) : Except PathspecError Pattern :=
  if keyword = kwAttr then .ok p
  else if keyword = kwTop then .ok { p with signature := { p.signature with top := true } }
  else if keyword = kwIcase then .ok { p with signature := { p.signature with icase := true } }
  else if keyword = kwExclude then
    .ok { p with signature := { p.signature with exclude := true } }
  else if keyword = kwLiteral then
    match p.search_mode with
    | .PathAwareGlob => .error .IncompatibleSearchModes
    | _ => .ok { p with search_mode := .Literal }
  else if keyword = kwGlob then
    match p.search_mode with
    | .Literal => .error .IncompatibleSearchModes
    | _ => .ok { p with search_mode := .PathAwareGlob }
  else if kwAttrColon.isPrefixOf keyword then
    if p.attributes.isEmpty then
      match pa (keyword.drop 5) with
      | .ok attrs => .ok { p with attributes := attrs }
      | .error e => .error e
    else .error .MultipleAttributeSpecifications
  else if kwPrefixColon.isPrefixOf keyword then .ok p
  else .error (.InvalidKeyword keyword)

/-- The `for keyword in split_on_non_escaped_char(input, b',')` loop of
`parse_long_keywords`, with errors propagated. -/
def parse_keywords (pa : List Nat → Except PathspecError (List Nat)) (p : Pattern) :
    List (List Nat) → Except PathspecError Pattern
  | [] => .ok p
  | kw :: rest =>
    match parse_keyword pa p kw with
    | .ok p1 => parse_keywords pa p1 rest
    | .error e => .error e

/-- `split_on_non_escaped_char` (parse.rs lines 131-146): walk the
2-windows of `input` (window index `k`, segment start `last`) and split at
every separator not preceded by a backslash. -/
def split_go (input : List Nat) (split_char : Nat) :
    List Nat → Nat → Nat → List (List Nat)
  | a :: b :: rest, k, last =>
    if a ≠ 92 ∧ b = split_char then
      ((input.drop last).take (k + 1 - last)) ::
        split_go input split_char (b :: rest) (k + 1) (k + 2)
    else split_go input split_char (b :: rest) (k + 1) last
  | _, _, last => [input.drop last]

/-- `split_on_non_escaped_char(input, split_char)`. -/
def split_on_non_escaped_char (input : List Nat) (split_char : Nat) : List (List Nat) :=
  split_go input split_char input 0 0

/-- `parse_long_keywords` (parse.rs lines 84-129): find the closing `)`
(searched from the start of the whole input, as in the source), take the
keyword segment from `cursor`, and run the keyword loop on its comma-split
(an empty segment parses to the unchanged pattern).  Returns the updated
pattern and cursor.  The Rust slice `&input[cursor..end]` panics when
`cursor > end`; the callers guarantee `cursor ≤ end`, and the truncating
`take` below agrees with the source on those inputs. -/
def parse_long_keywords (pa : List Nat → Except PathspecError (List Nat))
    (input : List Nat) (p : Pattern) (cursor : Nat) :
    Except PathspecError (Pattern × Nat) :=
  match input.findIdx? (fun b => decide (b = 41)) with
  | none => .error .MissingClosingParenthesis
  | some stop =>
    let inner := (input.drop cursor).take (stop - cursor)
    if inner.isEmpty then .ok (p, stop + 1)
    else
      match parse_keywords pa p (split_on_non_escaped_char inner 44) with
      | .ok p1 => .ok (p1, stop + 1)
      | .error e => .error e

/-! ## Theorems -/

/-- The spec's similarity formula (§9, "Similarity definition"), stated
from the spec's words: (number of before-side line tokens minus removals)
divided by the maximum of the before-side and after-side token counts. -/
def scoreSpec (repo : Repository) (item src : Item) : ℚ :=
  ((repo.lineTokens src.change.oid -
      repo.removals src.change.oid item.change.oid : Nat) : ℚ) /
    ((max (repo.lineTokens src.change.oid) (repo.lineTokens item.change.oid) : Nat) : ℚ)

/-- The embedded score is exactly the spec's quotient. -/
theorem similarity_eq_scoreSpec (repo : Repository) (item src : Item) :
    similarity repo item src = scoreSpec repo item src := by
  unfold similarity scoreSpec
  rw [Rat.mkRat_eq_div]
  simp

/-- C6: `try_push_change` declines ownership exactly for non-blob changes
and, with copy tracking off, for modifications; otherwise it appends the
path bytes, stores a fresh unemitted item whose range resolves to exactly
those bytes, and returns `None`. -/
theorem try_push_change_spec (s : State) (change : Change) (location : List Nat) :
    ((try_push_change s change location).1 = some change ↔
      (change.oid_and_mode.2.is_blob = false ∨
        (s.rewrites.copies = none ∧ change.isModification = true))) ∧
    (change.oid_and_mode.2.is_blob = true →
      (s.rewrites.copies = none → change.isModification = false) →
      try_push_change s change location =
        (none, { s with
          path_backing := s.path_backing ++ location,
          items := s.items ++
            [⟨change, (s.path_backing.length, (s.path_backing ++ location).length), false⟩] })) ∧
    (Item.locationIn
      ⟨change, (s.path_backing.length, (s.path_backing ++ location).length), false⟩
      (s.path_backing ++ location) = location) := by
  refine ⟨?_, ?_, ?_⟩
  · unfold try_push_change
    cases hb : change.oid_and_mode.2.is_blob with
    | false => simp [hb]
    | true =>
      cases hc : s.rewrites.copies with
      | none =>
        cases change with
        | modification pm po m o => simp [hc, Change.isModification]
        | addition m o => simp [hc, Change.isModification]
        | deletion m o => simp [hc, Change.isModification]
      | some c => simp [hc]
  · intro hb hcm
    unfold try_push_change
    cases hc : s.rewrites.copies with
    | none =>
      cases change with
      | modification pm po m o =>
        exact absurd (hcm hc) (by simp [Change.isModification])
      | addition m o => simp [hb]
      | deletion m o => simp [hb]
    | some c =>
      cases change with
      | modification pm po m o => simp [hb, hc]
      | addition m o => simp [hb, hc]
      | deletion m o => simp [hb, hc]
  · unfold Item.locationIn
    simp [List.length_append]

/-- C10: a declined `try_push_change` leaves the tracker state untouched
(the declined change is also handed back unaltered). -/
theorem try_push_change_decline_frame (s : State) (change : Change)
    (location : List Nat) (c : Change)
    (h : (try_push_change s change location).1 = some c) :
    (try_push_change s change location).2 = s ∧ c = change := by
  unfold try_push_change at h ⊢
  cases hb : change.oid_and_mode.2.is_blob with
  | false =>
    simp [hb] at h ⊢
    exact h.symm
  | true =>
    cases hc : s.rewrites.copies with
    | none =>
      cases change with
      | modification pm po m o =>
        simp [hb, hc] at h ⊢
        exact h.symm
      | addition m o => simp [hb, hc] at h
      | deletion m o => simp [hb, hc] at h
    | some cc =>
      cases change with
      | modification pm po m o => simp [hb, hc] at h
      | addition m o => simp [hb, hc] at h
      | deletion m o => simp [hb, hc] at h

/-- Witness for C10 at a concrete declined change (a tree entry). -/
theorem try_push_change_decline_frame_witness :
    (try_push_change (State.new Rewrites.default) (Change.deletion EntryMode.tree 1) []).2 =
      State.new Rewrites.default :=
  (try_push_change_decline_frame (State.new Rewrites.default)
    (Change.deletion EntryMode.tree 1) [] (Change.deletion EntryMode.tree 1) rfl).1

/-- Witness for C6 at a concrete accepted addition. -/
theorem try_push_change_spec_witness :
    try_push_change (State.new Rewrites.default) (Change.addition EntryMode.blob 1) [97] =
      (none, { items := [{ change := Change.addition EntryMode.blob 1, location := (0, 1),
                           emitted := false }],
               path_backing := [97], rewrites := Rewrites.default }) := by
  have h := (try_push_change_spec (State.new Rewrites.default)
    (Change.addition EntryMode.blob 1) [97]).2.1 rfl (fun _ => rfl)
  simpa [State.new] using h

/-- C3: with copy tracking configured, a completed rename phase runs into
`todo!("copy tracking")` — `emit` aborts (modelled as `none`) instead of
running a copy phase and draining.  Exhibited on the empty tracked set,
where the rename phase trivially completes. -/
theorem emit_aborts_when_copies_configured (cp : Copies) (pct : Option ℚ) (lim : Nat)
    (cb : Nat → Destination → Option Source → Action) (repo : Repository) :
    emit (State.new { copies := some cp, percentage := pct, limit := lim }) cb repo = none :=
  rfl

lemma foldl_add_count {α : Type} (f : α → Nat) :
    ∀ (l : List α) (n : Nat),
      l.foldl (fun acc p => acc + f p) n = n + (l.map f).sum := by
  intro l
  induction l with
  | nil => intro n; simp
  | cons a t ih => intro n; simp [ih, Nat.add_assoc]

lemma lookup_mem (l : ObjCache) (k : Nat) (v : ObjectInfo)
    (h : l.lookup k = some v) : (k, v) ∈ l := by
  induction l with
  | nil => simp [List.lookup] at h
  | cons kv rest ih =>
    obtain ⟨a, b⟩ := kv
    by_cases hk : k = a
    · subst hk
      simp [List.lookup] at h
      simp [h]
    · have hne : (k == a) = false := by simp [hk]
      simp [List.lookup, hne] at h
      exact List.mem_cons_of_mem _ (ih h)

/-- C8: the single-threaded and the pair-parallel pipeline agree.  The
parallel mode folds the same per-pair counts in an arbitrary completion
order into one counter, and the per-worker object cache is transparent:
on a cache consistent with the database, `find_with_obj_cache` answers
exactly as the database and preserves consistency, so each worker's
per-pair diff input is independent of its cache history. -/
theorem pipeline_parallel_eq_single :
    (∀ (diff_pair : PairDiffer) (commits : List Nat)
        (order : List (Nat × Nat)),
      order.Perm (windows2 commits) →
      do_gitoxide_tree_diff_parallel diff_pair order =
        do_gitoxide_tree_diff_single diff_pair commits) ∧
    (∀ (db : Nat → Option ObjectInfo) (cache : ObjCache) (oid : Nat),
      (∀ kv ∈ cache, db kv.1 = some kv.2) →
      (find_with_obj_cache db oid cache).1 = db oid ∧
        ∀ kv ∈ (find_with_obj_cache db oid cache).2, db kv.1 = some kv.2) := by
  constructor
  · intro diff_pair commits order hperm
    unfold do_gitoxide_tree_diff_parallel do_gitoxide_tree_diff_single
    rw [foldl_add_count, foldl_add_count]
    exact congrArg _ ((hperm.map diff_pair).sum_eq)
  · intro db cache oid hcons
    unfold find_with_obj_cache
    cases hl : cache.lookup oid with
    | none =>
      cases hdb : db oid with
      | none => exact ⟨rfl, hcons⟩
      | some o =>
        refine ⟨rfl, ?_⟩
        intro kv hkv
        rcases List.mem_cons.mp hkv with h | h
        · subst h; exact hdb
        · exact hcons kv h
    | some o =>
      have := hcons (oid, o) (lookup_mem cache oid o hl)
      exact ⟨this.symm, hcons⟩

/-- Witness for C8: a three-commit list diffed in reversed pair order, and
a cache miss answered from the database. -/
theorem pipeline_parallel_eq_single_witness :
    do_gitoxide_tree_diff_parallel (fun p => p.1 + p.2) [(2, 3), (1, 2)] =
      do_gitoxide_tree_diff_single (fun p => p.1 + p.2) [1, 2, 3] ∧
    (find_with_obj_cache (fun i => some (i, [])) 7 [(5, (5, []))]).1 = some (7, []) := by
  constructor
  · exact pipeline_parallel_eq_single.1 (fun p => p.1 + p.2) [1, 2, 3] [(2, 3), (1, 2)]
      (by decide)
  · exact (pipeline_parallel_eq_single.2 (fun i => some (i, [])) [(5, (5, []))] 7
      (by intro kv hkv; simp at hkv; subst hkv; rfl)).1

lemma parse_keyword_prefixColon (pa : List Nat → Except PathspecError (List Nat))
    (p : Pattern) (kw : List Nat) (h : kwPrefixColon.isPrefixOf kw = true) :
    parse_keyword pa p kw = .ok p := by
  obtain ⟨t, rfl⟩ := List.isPrefixOf_iff_prefix.mp h
  simp [parse_keyword, kwPrefixColon, kwAttr, kwTop, kwIcase, kwExclude, kwLiteral,
    kwGlob, kwAttrColon, List.isPrefixOf]

/-- C9: a long keyword starting with `prefix:` is accepted and has no
effect: the keyword loop of `parse_long_keywords` produces the same
pattern (signature, search mode, attributes) with or without it, and the
keyword alone maps the pattern to itself rather than `InvalidKeyword`. -/
theorem pathspec_prefix_keyword_ignored
    (pa : List Nat → Except PathspecError (List Nat)) (p : Pattern)
    (kws1 kws2 : List (List Nat)) (kw : List Nat)
    (h : kwPrefixColon.isPrefixOf kw = true) :
    parse_keywords pa p (kws1 ++ kw :: kws2) = parse_keywords pa p (kws1 ++ kws2) ∧
    parse_keyword pa p kw = .ok p := by
  refine ⟨?_, parse_keyword_prefixColon pa p kw h⟩
  induction kws1 generalizing p with
  | nil => simp [parse_keywords, parse_keyword_prefixColon pa p kw h]
  | cons k rest ih =>
    simp only [List.cons_append, parse_keywords]
    cases parse_keyword pa p k with
    | ok p1 => exact ih p1
    | error e => rfl

/-- Witness for C9: `(top,prefix:x,glob)` parses exactly like
`(top,glob)`. -/
theorem pathspec_prefix_keyword_ignored_witness :
    parse_keywords (fun _ => Except.error PathspecError.EmptyAttribute)
        ⟨[], MagicSignature.empty, SearchMode.ShellGlob, []⟩
        [kwTop, kwPrefixColon ++ [120], kwGlob] =
      parse_keywords (fun _ => Except.error PathspecError.EmptyAttribute)
        ⟨[], MagicSignature.empty, SearchMode.ShellGlob, []⟩ [kwTop, kwGlob] := by
  have h := (pathspec_prefix_keyword_ignored
    (fun _ => Except.error PathspecError.EmptyAttribute)
    ⟨[], MagicSignature.empty, SearchMode.ShellGlob, []⟩
    [kwTop] [kwGlob] (kwPrefixColon ++ [120]) (by decide)).1
  simpa using h

/-! ## Concrete tracked sets used to settle the rewrite-tracker claims -/

/-- Push a change and keep the state (the accepted-ownership view of
`try_push_change`). -/
def push_change (s : State) (c : Change) (l : List Nat) : State :=
  (try_push_change s c l).2

/-- A rewrite callback that always continues. -/
def cbCont : Nat → Destination → Option Source → Action := fun _ _ _ => Action.Continue

/-- A repository stub; never consulted on identity-only runs. -/
def repo_unit : Repository := ⟨fun _ => 1, fun _ _ => 0⟩

/-- Byte-wise lexicographic strict order on paths (the spec's
"lexicographically smallest path"). -/
def bytesLexLt : List Nat → List Nat → Bool
  | [], [] => false
  | [], _ :: _ => true
  | _ :: _, [] => false
  | a :: as1, b :: bs1 => if a < b then true else if a = b then bytesLexLt as1 bs1 else false

/-- Deletion of an unrelated blob (oid 1) at path `a`, deletion of blob 5
at path `b`, addition of blob 5 at path `c`: the oid-5 identity range
starts at sorted index 1, so the relative index returned by the identity
pass is off by one. -/
def state_bug : State :=
  push_change (push_change (push_change (State.new Rewrites.default)
    (Change.deletion EntryMode.blob 1) [97])
    (Change.deletion EntryMode.blob 5) [98])
    (Change.addition EntryMode.blob 5) [99]

/-- C1 (code bug): the identity pass of `find_match` returns the chosen
source's index *relative* to the oid-equal slice, and `find_renames` uses
it as an absolute index when marking.  On `state_bug` the single rename
call reports source path `b` (sorted index 1), yet at the moment of the
callback the emitted flags are `[true, false, true]`: the unrelated oid-1
deletion at index 0 is marked and the chosen source at index 1 is not, so
the announced source `b` is later drained again as a plain deletion. -/
theorem rename_marks_wrong_item_at_slice_offset :
    (emit state_bug cbCont repo_unit).map (fun r =>
      (r.rename_records.map (fun c =>
        (c.destIdx, c.srcIdx, c.src.map Source.location, c.itemsAtCall.map Item.emitted)),
       r.drain_records.map (fun d => (d.idx, d.dest.location)))) =
    some ([(2, some 0, some [98], [true, false, true])], [(1, [98])]) := rfl

/-- `Rewrites` with candidate-pair limit 0 (similarity enabled at 0.5). -/
def rw_limit0 : Rewrites :=
  { copies := none, percentage := some (mkRat 1 2), limit := 0 }

/-- One deletion (oid 1, path `a`) and one addition (oid 2, path `b`):
1 add × 1 del = 1 candidate pair, exceeding the configured limit 0. -/
def state_limit : State :=
  push_change (push_change (State.new rw_limit0)
    (Change.deletion EntryMode.blob 1) [97])
    (Change.addition EntryMode.blob 2) [98]

/-- Both blobs have two line tokens and diff with zero removals:
similarity 1. -/
def repo_sim : Repository := ⟨fun _ => 2, fun _ _ => 0⟩

/-- C2 counterexample: with adds × dels (= 1) exceeding `rewrites.limit`
(= 0), the similarity pass still runs and emits a non-identity rewrite
(destination oid 2 paired to source id 1), contradicting "Pass B is
skipped entirely (identity-only behaviour)". -/
theorem similarity_runs_despite_limit_exceeded :
    state_limit.items.countP (fun i => i.change.isAddition) *
        state_limit.items.countP (fun i => i.change.isDeletion) >
      state_limit.rewrites.limit ∧
    (emit state_limit cbCont repo_sim).map (fun r =>
      r.rename_records.map (fun c => (c.dest.change.oid, c.src.map Source.id))) =
      some [(2, some 1)] ∧
    (2 : Nat) ≠ 1 := by
  exact ⟨by decide, by decide, by decide⟩

/-- Two identity-equal deletions pushed in the order `b`, `a`, then an
addition `x` of the same blob. -/
def state_ambig : State :=
  push_change (push_change (push_change (State.new Rewrites.default)
    (Change.deletion EntryMode.blob 5) [98])
    (Change.deletion EntryMode.blob 5) [97])
    (Change.addition EntryMode.blob 5) [120]

/-- C4 counterexample: among two unemitted identity-equal deletions the
identity pass chooses the earlier-pushed source `b`, not the
lexicographically smallest path `a` (which stays unmatched and is
drained as a plain deletion). -/
theorem identity_choice_not_lexicographic :
    (emit state_ambig cbCont repo_unit).map (fun r =>
      (r.rename_records.map (fun c => (c.dest.location, c.src.map Source.location)),
       r.drain_records.map DrainRecord.dest)) =
      some ([([120], some [98])], [⟨Change.deletion EntryMode.blob 5, [97]⟩]) ∧
    bytesLexLt [97] [98] = true := by
  exact ⟨by decide, by decide⟩

/-- `state_bug` plus a trailing deletion `z`, so that the drain phase has
an invocation after re-surfacing the mis-unmarked source. -/
def state_resurface : State :=
  push_change (push_change (push_change (push_change (State.new Rewrites.default)
    (Change.deletion EntryMode.blob 1) [97])
    (Change.deletion EntryMode.blob 5) [98])
    (Change.addition EntryMode.blob 5) [99])
    (Change.deletion EntryMode.blob 9) [122]

/-- Cancels on the third callback invocation. -/
def cbCancelAt2 : Nat → Destination → Option Source → Action :=
  fun k _ _ => if k < 2 then Action.Continue else Action.Cancel

/-- C7 counterexample: with a callback that cancels on its third
invocation, `emit` still returns `Ok`, but the item at path `b` — already
surfaced before the cancellation as the rename source of invocation 0 —
is surfaced again by drain invocation 1 (the relative-index defect left it
unmarked), contradicting "no item already surfaced before the cancellation
is surfaced again". -/
theorem source_resurfaced_before_cancel :
    (emit state_resurface cbCancelAt2 repo_unit).map (fun r =>
      (r.rename_records.map (fun c => (c.dest.location, c.src.map Source.location)),
       r.drain_records.map (fun d => d.dest.location))) =
      some ([([99], some [98])], [[98], [122]]) ∧
    cbCancelAt2 2 ⟨Change.deletion EntryMode.blob 9, [122]⟩ none = Action.Cancel := by
  exact ⟨by decide, by decide⟩

lemma find_renames_loop_limit (repo : Repository)
    (cb : Nat → Destination → Option Source → Action) (backing : List Nat)
    (c : Option Copies) (p : Option ℚ) (n m : Nat) :
    ∀ (fuel : Nat) (items : List Item) (dest_ofs cnt : Nat),
      find_renames_loop repo ⟨c, p, n⟩ cb backing fuel items dest_ofs cnt =
        find_renames_loop repo ⟨c, p, m⟩ cb backing fuel items dest_ofs cnt := by
  intro fuel
  induction fuel with
  | zero => intro items dest_ofs cnt; rfl
  | succ f ih =>
    intro items dest_ofs cnt
    simp only [find_renames_loop]
    cases hfd : findDest items dest_ofs with
    | none => rfl
    | some d =>
      obtain ⟨dest_idx, dest⟩ := d
      dsimp only
      cases cb cnt (mkDestination dest backing)
          ((find_match items dest dest_idx p Kind.RenameTarget repo).map
            fun q => mkSource q.2 backing) with
      | Cancel => rfl
      | Continue => rw [ih]

/-- C2 (amended): `rewrites.limit` is never consulted — `emit`'s callback
traces and resulting item vector and path backing are the same for every
limit value (in particular when adds × dels exceeds it); the default limit
is 1000. -/
theorem emit_ignores_rename_limit :
    Rewrites.default.limit = 1000 ∧
    ∀ (s : State) (n : Nat) (cb : Nat → Destination → Option Source → Action)
      (repo : Repository),
      (emit { s with rewrites := { s.rewrites with limit := n } } cb repo).map
          (fun r => (r.rename_records, r.drain_records, r.final.items,
            r.final.path_backing)) =
        (emit s cb repo).map
          (fun r => (r.rename_records, r.drain_records, r.final.items,
            r.final.path_backing)) := by
  refine ⟨rfl, ?_⟩
  intro s n cb repo
  obtain ⟨items, backing, rw0⟩ := s
  obtain ⟨c, p, l⟩ := rw0
  show (emit ⟨items, backing, ⟨c, p, n⟩⟩ cb repo).map _ =
    (emit ⟨items, backing, ⟨c, p, l⟩⟩ cb repo).map _
  unfold emit find_renames
  dsimp only
  rw [find_renames_loop_limit repo cb backing c p n l]
  cases hA : (find_renames_loop repo ⟨c, p, l⟩ cb backing
      ((sortItems items).length + 1) (sortItems items) 0 0).action with
  | Cancel => rfl
  | Continue => cases c <;> rfl

lemma item_cmp_ne_gt (a b : Item) :
    item_cmp a b ≠ Ordering.gt ↔
      (a.change.oid < b.change.oid ∨ (a.change.oid = b.change.oid ∧
        (a.location.1 < b.location.1 ∨ (a.location.1 = b.location.1 ∧
          a.location.2 ≤ b.location.2)))) := by
  unfold item_cmp
  rw [Ne, Ordering.then_eq_gt, Ordering.then_eq_gt]
  simp only [Nat.compare_eq_gt, Nat.compare_eq_eq]
  omega

instance : IsTotal Item item_le :=
  ⟨fun a b => by simp only [item_le, item_cmp_ne_gt]; omega⟩

instance : IsTrans Item item_le :=
  ⟨fun a b c => by simp only [item_le, item_cmp_ne_gt]; omega⟩

lemma sortItems_sorted (l : List Item) : List.Sorted item_le (sortItems l) :=
  List.sorted_insertionSort item_le l

lemma sorted_rel_of_get? {l : List Item} (h : List.Sorted item_le l) {i j : Nat}
    (hij : i < j) {a b : Item} (ha : l[i]? = some a) (hb : l[j]? = some b) :
    item_le a b := by
  obtain ⟨hj, hbj⟩ := List.getElem?_eq_some.mp hb
  obtain ⟨hi, hai⟩ := List.getElem?_eq_some.mp ha
  have := List.pairwise_iff_get.mp h ⟨i, hi⟩ ⟨j, hj⟩ hij
  simpa [List.get_eq_getElem, hai, hbj] using this

lemma takeWhile_getElem? (p : Item → Bool) :
    ∀ (l : List Item) (k : Nat), k < (l.takeWhile p).length →
      ∀ x, l[k]? = some x → p x = true := by
  intro l
  induction l with
  | nil => intro k hk; simp [List.takeWhile] at hk
  | cons a t ih =>
    intro k hk x hx
    by_cases hp : p a
    · cases k with
      | zero => simp at hx; simpa [hx.symm] using hp
      | succ k =>
        simp [List.takeWhile, hp] at hk
        exact ih k (by omega) x (by simpa using hx)
    · simp [List.takeWhile, hp] at hk

lemma position_some (p : Item → Bool) :
    ∀ (l : List Item) (j : Nat), position p l = some j →
      (∃ x, l[j]? = some x ∧ p x = true) ∧
        ∀ k, k < j → ∀ y, l[k]? = some y → p y = false := by
  intro l
  induction l with
  | nil => intro j h; simp [position] at h
  | cons a t ih =>
    intro j h
    rw [position] at h
    by_cases hp : p a
    · rw [if_pos hp] at h
      injection h with h
      subst h
      exact ⟨⟨a, by simp, hp⟩, fun k hk => absurd hk (by omega)⟩
    · rw [if_neg hp] at h
      cases hj : position p t with
      | none => rw [hj] at h; simp at h
      | some j0 =>
        rw [hj] at h
        simp at h
        subst h
        obtain ⟨⟨x, hx, hpx⟩, hbef⟩ := ih j0 hj
        refine ⟨⟨x, by simpa using hx, hpx⟩, ?_⟩
        intro k hk y hy
        cases k with
        | zero =>
          simp at hy
          rw [← hy]
          exact eq_false_of_ne_true hp
        | succ k => exact hbef k (by omega) y (by simpa using hy)

lemma position_none (p : Item → Bool) :
    ∀ (l : List Item), position p l = none →
      ∀ (k : Nat) (y : Item), l[k]? = some y → p y = false := by
  intro l
  induction l with
  | nil => intro _ k y hy; simp at hy
  | cons a t ih =>
    intro h k y hy
    rw [position] at h
    by_cases hp : p a
    · rw [if_pos hp] at h; simp at h
    · rw [if_neg hp] at h
      cases hj : position p t with
      | some j0 => rw [hj] at h; simp at h
      | none =>
        cases k with
        | zero =>
          simp at hy
          rw [← hy]
          exact eq_false_of_ne_true hp
        | succ k => exact ih hj k y (by simpa using hy)

lemma find_src_spec (range_start item_idx : Nat) (kind : Kind) :
    ∀ (slice : List Item) (i j : Nat) (src : Item),
      find_src slice range_start item_idx kind i = some (j, src) →
      i ≤ j ∧ slice[j - i]? = some src ∧
        ((j + range_start != item_idx) && !src.emitted &&
          kind.can_use_change src.change) = true ∧
        ∀ k, i ≤ k → k < j → ∀ y, slice[k - i]? = some y →
          ((k + range_start != item_idx) && !y.emitted &&
            kind.can_use_change y.change) = false := by
  intro slice
  induction slice with
  | nil => intro i j src h; rw [find_src] at h; exact absurd h (by simp)
  | cons a t ih =>
    intro i j src h
    rw [find_src] at h
    by_cases hp : ((i + range_start != item_idx) && !a.emitted &&
        kind.can_use_change a.change) = true
    · rw [if_pos hp] at h
      injection h with h1
      injection h1 with hji hsrc
      subst hji; subst hsrc
      exact ⟨le_refl i, by simp, hp, fun k hk1 hk2 y _ => absurd hk1 (by omega)⟩
    · rw [if_neg hp] at h
      obtain ⟨hij, hget, hpr, hbef⟩ := ih (i + 1) j src h
      refine ⟨by omega, ?_, hpr, ?_⟩
      · have : j - i = (j - (i + 1)) + 1 := by omega
        rw [this]
        simpa using hget
      · intro k hk1 hk2 y hy
        rcases Nat.eq_or_lt_of_le hk1 with he | hlt
        · subst he
          simp at hy
          rw [← hy]
          exact eq_false_of_ne_true hp
        · have : k - i = (k - (i + 1)) + 1 := by omega
          rw [this] at hy
          exact hbef k hlt hk2 y (by simpa using hy)

lemma mem_of_getElem?_item {l : List Item} {n : Nat} {a : Item} (h : l[n]? = some a) :
    a ∈ l := by
  obtain ⟨hn, rfl⟩ := List.getElem?_eq_some.mp h
  exact List.getElem_mem hn

/-- C4 (amended): `emit` sorts by (oid, path-range start, path-range end),
and on a sorted item vector the identity pass chooses, among the usable
unemitted oid-equal candidates, the one with the smallest `location.start`
— i.e. the earliest-pushed.  When the push order lists paths in
lexicographic order (as the deterministic tree walk does), that source is
also lexicographically minimal.  The pairing is a pure function of the
tracked set, hence identical across runs. -/
theorem identity_pass_chooses_min_start :
    (∀ l : List Item, List.Sorted item_le (sortItems l)) ∧
    ∀ (items : List Item) (item : Item) (item_idx : Nat) (kind : Kind)
      (j : Nat) (src : Item),
      List.Sorted item_le items →
      identity_pass items item item_idx kind = some (some (j, src)) →
      src.emitted = false ∧ kind.can_use_change src.change = true ∧
      src.change.oid = item.change.oid ∧
      (∃ k0 : Nat, items[k0]? = some src ∧ k0 ≠ item_idx) ∧
      (∀ (k : Nat) (other : Item), items[k]? = some other → k ≠ item_idx →
        other.emitted = false → kind.can_use_change other.change = true →
        other.change.oid = item.change.oid →
        src.location.1 ≤ other.location.1) ∧
      (∀ (backing : List Nat),
        (∀ x y : Item, x ∈ items → y ∈ items → x.location.1 ≤ y.location.1 →
          bytesLexLt (y.locationIn backing) (x.locationIn backing) = false) →
        ∀ (k : Nat) (other : Item), items[k]? = some other → k ≠ item_idx →
          other.emitted = false → kind.can_use_change other.change = true →
          other.change.oid = item.change.oid →
          bytesLexLt (other.locationIn backing) (src.locationIn backing) = false) := by
  refine ⟨sortItems_sorted, ?_⟩
  intro items item item_idx kind j src hsorted hip
  unfold identity_pass at hip
  simp only [] at hip
  set fi := partition_point (fun a => decide (a.change.oid < item.change.oid)) items
    with hfi_def
  have hfle : fi ≤ items.length := (List.takeWhile_sublist _).length_le
  rw [if_pos hfle] at hip
  -- name the end of the oid-equal range
  set stop :=
    (match position (fun a => decide (a.change.oid ≠ item.change.oid)) (items.drop fi) with
      | some idx => fi + idx
      | none => items.length) with hstop_def
  clear_value stop
  clear_value fi
  by_cases hse : stop ≤ fi
  · rw [if_pos hse] at hip
    simp at hip
  rw [if_neg hse] at hip
  have hstop_gt : fi < stop := by omega
  cases hfs : find_src ((items.drop fi).take (stop - fi)) fi item_idx kind 0 with
  | none => rw [hfs] at hip; simp at hip
  | some res =>
    rw [hfs] at hip
    simp at hip
    rw [hip] at hfs
    clear hip
    obtain ⟨-, hget0, hpred, hbef⟩ := find_src_spec fi item_idx kind _ 0 j src hfs
    simp only [Nat.sub_zero] at hget0
    -- position of src in the full vector
    rw [List.getElem?_take] at hget0
    by_cases hjlt : j < stop - fi
    swap
    · rw [if_neg hjlt] at hget0; exact absurd hget0 (by simp)
    rw [if_pos hjlt, List.getElem?_drop] at hget0
    -- predicate components
    have hpred' := hpred
    simp only [Bool.and_eq_true, bne_iff_ne, ne_eq, Bool.not_eq_true'] at hpred'
    obtain ⟨⟨hne, hemit⟩, huse⟩ := hpred'
    -- every position in [fi, stop) carries the destination's oid
    have hmid : ∀ rel : Nat, rel < stop - fi → ∀ z : Item,
        items[fi + rel]? = some z → z.change.oid = item.change.oid := by
      intro rel hrel z hz
      cases hpos : position (fun a => decide (a.change.oid ≠ item.change.oid))
          (items.drop fi) with
      | none =>
        have := position_none _ _ hpos rel z (by rw [List.getElem?_drop]; exact hz)
        simpa using this
      | some idx0 =>
        have hstop_eq : stop = fi + idx0 := by rw [hstop_def, hpos]
        have := (position_some _ _ _ hpos).2 rel (by omega) z
          (by rw [List.getElem?_drop]; exact hz)
        simpa using this
    have hsrc_oid : src.change.oid = item.change.oid := hmid j hjlt src hget0
    -- no usable candidate sits at or beyond `stop`
    have hz3 : ∀ (k : Nat) (other : Item), stop ≤ k → items[k]? = some other →
        other.change.oid ≠ item.change.oid := by
      intro k other hk hko
      cases hpos : position (fun a => decide (a.change.oid ≠ item.change.oid))
          (items.drop fi) with
      | none =>
        have hstop_eq : stop = items.length := by rw [hstop_def, hpos]
        have : items[k]? = none := List.getElem?_eq_none (by omega)
        rw [this] at hko
        exact absurd hko (by simp)
      | some idx0 =>
        have hstop_eq : stop = fi + idx0 := by rw [hstop_def, hpos]
        obtain ⟨⟨w, hw, hwp⟩, hbefw⟩ := position_some _ _ _ hpos
        rw [List.getElem?_drop] at hw
        have hwoid : w.change.oid ≠ item.change.oid := by simpa using hwp
        have hidx0 : 0 < idx0 := by omega
        obtain ⟨hwin, -⟩ := List.getElem?_eq_some.mp hw
        have hfl : fi < items.length := by omega
        have hfi_some : items[fi]? = some (items.get ⟨fi, hfl⟩) := by
          rw [List.getElem?_eq_some]
          exact ⟨hfl, (List.get_eq_getElem items ⟨fi, hfl⟩).symm⟩
        have hz0p := hbefw 0 hidx0 (items.get ⟨fi, hfl⟩)
          (by rw [List.getElem?_drop, Nat.add_zero]; exact hfi_some)
        have hz0oid : (items.get ⟨fi, hfl⟩).change.oid = item.change.oid := by
          simpa using hz0p
        have hzw : item_le (items.get ⟨fi, hfl⟩) w :=
          sorted_rel_of_get? hsorted (show fi < fi + idx0 by omega) hfi_some hw
        have hwgt : item.change.oid < w.change.oid := by
          rw [item_le, item_cmp_ne_gt] at hzw
          omega
        rcases Nat.eq_or_lt_of_le hk with he | hlt
        · rw [← he, hstop_eq] at hko
          rw [hko] at hw
          injection hw with hw
          rw [hw]
          exact hwoid
        · have hwo : item_le w other :=
            sorted_rel_of_get? hsorted (show fi + idx0 < k by omega) hw hko
          rw [item_le, item_cmp_ne_gt] at hwo
          omega
    -- the min-start property
    have hmin : ∀ (k : Nat) (other : Item), items[k]? = some other → k ≠ item_idx →
        other.emitted = false → kind.can_use_change other.change = true →
        other.change.oid = item.change.oid →
        src.location.1 ≤ other.location.1 := by
      intro k other hko hkne hoe hou hoo
      by_cases hk1 : k < fi
      · exfalso
        have := takeWhile_getElem? _ items k (by rw [hfi_def] at hk1; exact hk1) other hko
        simp at this
        omega
      by_cases hk2 : k < stop
      · have hrel : k - fi < stop - fi := by omega
        have hks : fi + (k - fi) = k := by omega
        have hko' : ((items.drop fi).take (stop - fi))[k - fi]? = some other := by
          rw [List.getElem?_take, if_pos hrel, List.getElem?_drop, hks]
          exact hko
        rcases Nat.lt_trichotomy (k - fi) j with hlt | heq | hgt
        · exfalso
          have hp := hbef (k - fi) (Nat.zero_le _) hlt other
            (by simpa using hko')
          have htrue : ((k - fi + fi != item_idx) && !other.emitted &&
              kind.can_use_change other.change) = true := by
            simp only [Bool.and_eq_true, bne_iff_ne, ne_eq, Bool.not_eq_true']
            refine ⟨⟨?_, hoe⟩, hou⟩
            omega
          rw [hp] at htrue
          exact absurd htrue (by simp)
        · have : ((items.drop fi).take (stop - fi))[j]? = some other := by
            rw [← heq]; exact hko'
          rw [List.getElem?_take, if_pos hjlt, List.getElem?_drop] at this
          rw [hget0] at this
          injection this with this
          rw [this]
        · have hso : item_le src other :=
            sorted_rel_of_get? hsorted (by omega : fi + j < k) hget0 hko
          rw [item_le, item_cmp_ne_gt] at hso
          omega
      · exact absurd hoo (hz3 k other (by omega) hko)
    have hsrc_mem : src ∈ items := mem_of_getElem?_item hget0
    refine ⟨hemit, huse, hsrc_oid, ⟨fi + j, hget0, by omega⟩, hmin, ?_⟩
    intro backing hlex k other hko hkne hoe hou hoo
    exact hlex src other hsrc_mem (mem_of_getElem?_item hko)
      (hmin k other hko hkne hoe hou hoo)

/-- Witness for C4 (amended) on a two-item sorted set: the oid-5 deletion
is chosen for the oid-5 addition. -/
theorem identity_pass_chooses_min_start_witness :
    (⟨Change.deletion EntryMode.blob 5, (0, 1), false⟩ : Item).emitted = false ∧
    Kind.can_use_change Kind.RenameTarget
      (⟨Change.deletion EntryMode.blob 5, (0, 1), false⟩ : Item).change = true := by
  have h := identity_pass_chooses_min_start.2
    [⟨Change.deletion EntryMode.blob 5, (0, 1), false⟩,
     ⟨Change.addition EntryMode.blob 5, (1, 2), false⟩]
    ⟨Change.addition EntryMode.blob 5, (1, 2), false⟩ 1 Kind.RenameTarget 0
    ⟨Change.deletion EntryMode.blob 5, (0, 1), false⟩ (by decide) (by decide)
  exact ⟨h.1, h.2.1⟩

lemma similarity_pass_some (repo : Repository) (item : Item) (item_idx : Nat) (p : ℚ)
    (kind : Kind) :
    ∀ (l : List Item) (i0 j : Nat) (src : Item),
      similarity_pass repo item item_idx p kind l i0 = some (j, src) →
      i0 ≤ j ∧ l[j - i0]? = some src ∧
        ((j != item_idx) && !src.emitted && kind.can_use_change src.change) = true ∧
        p ≤ similarity repo item src ∧
        ∀ k, i0 ≤ k → k < j → ∀ y, l[k - i0]? = some y →
          ((k != item_idx) && !y.emitted && kind.can_use_change y.change) = true →
          similarity repo item y < p := by
  intro l
  induction l with
  | nil => intro i0 j src h; rw [similarity_pass] at h; exact absurd h (by simp)
  | cons a t ih =>
    intro i0 j src h
    rw [similarity_pass] at h
    by_cases he : ((i0 != item_idx) && !a.emitted && kind.can_use_change a.change) = true
    · rw [if_pos he] at h
      by_cases hacc : p ≤ similarity repo item a
      · rw [if_pos hacc] at h
        have hpair : i0 = j ∧ a = src := by simpa [Prod.ext_iff] using h
        obtain ⟨h1, h2⟩ := hpair
        subst h1; subst h2
        exact ⟨le_refl i0, by simp, he, hacc,
          fun k hk1 hk2 y _ _ => absurd hk1 (by omega)⟩
      · rw [if_neg hacc] at h
        obtain ⟨hij, hget, hel, hsc, hbef⟩ := ih (i0 + 1) j src h
        refine ⟨by omega, ?_, hel, hsc, ?_⟩
        · have : j - i0 = (j - (i0 + 1)) + 1 := by omega
          rw [this]; simpa using hget
        · intro k hk1 hk2 y hy hey
          rcases Nat.eq_or_lt_of_le hk1 with hke | hkl
          · subst hke
            simp at hy
            rw [← hy]
            exact lt_of_not_le hacc
          · have : k - i0 = (k - (i0 + 1)) + 1 := by omega
            rw [this] at hy
            exact hbef k hkl hk2 y (by simpa using hy) hey
    · rw [if_neg he] at h
      obtain ⟨hij, hget, hel, hsc, hbef⟩ := ih (i0 + 1) j src h
      refine ⟨by omega, ?_, hel, hsc, ?_⟩
      · have : j - i0 = (j - (i0 + 1)) + 1 := by omega
        rw [this]; simpa using hget
      · intro k hk1 hk2 y hy hey
        rcases Nat.eq_or_lt_of_le hk1 with hke | hkl
        · subst hke
          simp at hy
          rw [← hy] at hey
          exact absurd hey he
        · have : k - i0 = (k - (i0 + 1)) + 1 := by omega
          rw [this] at hy
          exact hbef k hkl hk2 y (by simpa using hy) hey

lemma similarity_pass_none (repo : Repository) (item : Item) (item_idx : Nat) (p : ℚ)
    (kind : Kind) :
    ∀ (l : List Item) (i0 : Nat),
      similarity_pass repo item item_idx p kind l i0 = none →
      ∀ k, i0 ≤ k → ∀ y, l[k - i0]? = some y →
        ((k != item_idx) && !y.emitted && kind.can_use_change y.change) = true →
        similarity repo item y < p := by
  intro l
  induction l with
  | nil => intro i0 _ k _ y hy; simp at hy
  | cons a t ih =>
    intro i0 h k hk1 y hy hey
    rw [similarity_pass] at h
    by_cases he : ((i0 != item_idx) && !a.emitted && kind.can_use_change a.change) = true
    · rw [if_pos he] at h
      by_cases hacc : p ≤ similarity repo item a
      · rw [if_pos hacc] at h; exact absurd h (by simp)
      · rw [if_neg hacc] at h
        rcases Nat.eq_or_lt_of_le hk1 with hke | hkl
        · subst hke
          simp at hy
          rw [← hy]
          exact lt_of_not_le hacc
        · have : k - i0 = (k - (i0 + 1)) + 1 := by omega
          rw [this] at hy
          exact ih (i0 + 1) h k (by omega) y (by simpa using hy) hey
    · rw [if_neg he] at h
      rcases Nat.eq_or_lt_of_le hk1 with hke | hkl
      · subst hke
        simp at hy
        rw [← hy] at hey
        exact absurd hey he
      · have : k - i0 = (k - (i0 + 1)) + 1 := by omega
        rw [this] at hy
        exact ih (i0 + 1) h k (by omega) y (by simpa using hy) hey

/-- C5: the two-pass structure of `find_match`.  (1) an identity result
short-circuits; (2) with no percentage, or a percentage `≥ 1.0`, the blob
capabilities are never consulted (the similarity pass does not run);
(3) with a percentage `< 1.0` and a fallen-through identity pass,
`find_match` is exactly the similarity scan; the scan (4) accepts the
first eligible candidate (in sorted item order) whose spec-formula score
`(|before| - removals) / max(|before|, |after|)` reaches the percentage,
every earlier eligible candidate scoring below it, and (5) returns `none`
only when every eligible candidate scores below it. -/
theorem find_match_similarity_characterization
    (items : List Item) (item : Item) (item_idx : Nat) (kind : Kind)
    (repo repo2 : Repository) :
    (∀ (pct : Option ℚ) (res : Option (Nat × Item)),
      identity_pass items item item_idx kind = some res →
      find_match items item item_idx pct kind repo = res) ∧
    (∀ pct : Option ℚ, needs_exact_match pct = true →
      find_match items item item_idx pct kind repo =
        find_match items item item_idx pct kind repo2) ∧
    (∀ p : ℚ, p < 1 → identity_pass items item item_idx kind = none →
      find_match items item item_idx (some p) kind repo =
        similarity_pass repo item item_idx p kind items 0) ∧
    (∀ (p : ℚ) (j : Nat) (src : Item),
      similarity_pass repo item item_idx p kind items 0 = some (j, src) →
      items[j]? = some src ∧
        (j ≠ item_idx ∧ src.emitted = false ∧ kind.can_use_change src.change = true) ∧
        p ≤ scoreSpec repo item src ∧
        ∀ k, k < j → ∀ y, items[k]? = some y →
          (k ≠ item_idx ∧ y.emitted = false ∧ kind.can_use_change y.change = true) →
          scoreSpec repo item y < p) ∧
    (∀ p : ℚ, similarity_pass repo item item_idx p kind items 0 = none →
      ∀ (k : Nat) (y : Item), items[k]? = some y →
        (k ≠ item_idx ∧ y.emitted = false ∧ kind.can_use_change y.change = true) →
        scoreSpec repo item y < p) := by
  refine ⟨?_, ?_, ?_, ?_, ?_⟩
  · intro pct res h
    unfold find_match
    rw [h]
  · intro pct hex
    unfold find_match
    cases h : identity_pass items item item_idx kind with
    | some res => rfl
    | none =>
      cases pct with
      | none => rfl
      | some p => simp [hex]
  · intro p hp hid
    unfold find_match
    rw [hid]
    have : needs_exact_match (some p) = false := by
      simp [needs_exact_match]
      exact hp
    simp [this]
  · intro p j src h
    obtain ⟨-, hget, hel, hsc, hbef⟩ :=
      similarity_pass_some repo item item_idx p kind items 0 j src h
    simp only [Nat.sub_zero] at hget
    simp only [Bool.and_eq_true, bne_iff_ne, ne_eq, Bool.not_eq_true'] at hel
    rw [similarity_eq_scoreSpec] at hsc
    refine ⟨hget, ⟨hel.1.1, hel.1.2, hel.2⟩, hsc, ?_⟩
    intro k hk y hy hely
    have := hbef k (Nat.zero_le _) hk y (by simpa using hy)
      (by simp only [Bool.and_eq_true, bne_iff_ne, ne_eq, Bool.not_eq_true']
          exact ⟨⟨hely.1, hely.2.1⟩, hely.2.2⟩)
    rwa [similarity_eq_scoreSpec] at this
  · intro p h k y hy hely
    have := similarity_pass_none repo item item_idx p kind items 0 h k (Nat.zero_le _)
      y (by simpa using hy)
      (by simp only [Bool.and_eq_true, bne_iff_ne, ne_eq, Bool.not_eq_true']
          exact ⟨⟨hely.1, hely.2.1⟩, hely.2.2⟩)
    rwa [similarity_eq_scoreSpec] at this

/-- Witness for C5: on a one-item set whose identity pass falls through,
`find_match` at percentage 0.5 is the similarity scan. -/
theorem find_match_similarity_characterization_witness :
    find_match [⟨Change.addition EntryMode.blob 5, (0, 1), false⟩]
        ⟨Change.addition EntryMode.blob 5, (0, 1), false⟩ 0 (some (mkRat 1 2))
        Kind.RenameTarget repo_unit =
      similarity_pass repo_unit ⟨Change.addition EntryMode.blob 5, (0, 1), false⟩ 0
        (mkRat 1 2) Kind.RenameTarget
        [⟨Change.addition EntryMode.blob 5, (0, 1), false⟩] 0 :=
  (find_match_similarity_characterization
      [⟨Change.addition EntryMode.blob 5, (0, 1), false⟩]
      ⟨Change.addition EntryMode.blob 5, (0, 1), false⟩ 0 Kind.RenameTarget
      repo_unit repo_unit).2.2.1 (mkRat 1 2) (by decide) (by decide)

lemma setEmitted_length : ∀ (l : List Item) (n : Nat), (setEmitted l n).length = l.length := by
  intro l
  induction l with
  | nil => intro n; rfl
  | cons a t ih =>
    intro n
    cases n with
    | zero => rfl
    | succ n => simp [setEmitted, ih]

lemma setEmitted_getElem? : ∀ (l : List Item) (n i : Nat),
    (setEmitted l n)[i]? =
      if i = n then (l[i]?).map (fun it => { it with emitted := true }) else l[i]? := by
  intro l
  induction l with
  | nil => intro n i; simp [setEmitted]
  | cons a t ih =>
    intro n i
    cases n with
    | zero =>
      cases i with
      | zero => simp [setEmitted]
      | succ i => simp [setEmitted]
    | succ n =>
      cases i with
      | zero => simp [setEmitted]
      | succ i =>
        simp only [setEmitted, List.getElem?_cons_succ, ih]
        by_cases h : i = n
        · simp [h]
        · simp [h, Nat.succ_ne_succ.mpr h]

lemma setEmitted_mono {l : List Item} {i : Nat} {a : Item} (n : Nat)
    (h : l[i]? = some a) (ha : a.emitted = true) :
    ∃ b, (setEmitted l n)[i]? = some b ∧ b.emitted = true := by
  rw [setEmitted_getElem?]
  by_cases hin : i = n
  · subst hin
    rw [if_pos rfl, h]
    exact ⟨{ a with emitted := true }, rfl, rfl⟩
  · rw [if_neg hin]
    exact ⟨a, h, ha⟩

lemma findDestFrom_spec : ∀ (l : List Item) (i j : Nat) (it : Item),
    findDestFrom l i = some (j, it) →
    i ≤ j ∧ l[j - i]? = some it ∧ it.emitted = false ∧ it.change.isAddition = true := by
  intro l
  induction l with
  | nil => intro i j it h; simp [findDestFrom] at h
  | cons a t ih =>
    intro i j it h
    rw [findDestFrom] at h
    by_cases hp : (!a.emitted && a.change.isAddition) = true
    · rw [if_pos hp] at h
      have hpair : i = j ∧ a = it := by simpa [Prod.ext_iff] using h
      obtain ⟨h1, h2⟩ := hpair
      subst h1; subst h2
      simp only [Bool.and_eq_true, Bool.not_eq_true'] at hp
      exact ⟨le_refl i, by simp, hp.1, hp.2⟩
    · rw [if_neg hp] at h
      obtain ⟨hij, hget, he, hadd⟩ := ih (i + 1) j it h
      refine ⟨by omega, ?_, he, hadd⟩
      have : j - i = (j - (i + 1)) + 1 := by omega
      rw [this]
      simpa using hget

lemma findDest_spec {items : List Item} {dest_ofs j : Nat} {it : Item}
    (h : findDest items dest_ofs = some (j, it)) :
    dest_ofs ≤ j ∧ items[j]? = some it ∧ it.emitted = false ∧
      it.change.isAddition = true := by
  unfold findDest at h
  obtain ⟨hij, hget, he, hadd⟩ := findDestFrom_spec _ dest_ofs j it h
  rw [List.getElem?_drop] at hget
  have : dest_ofs + (j - dest_ofs) = j := by omega
  rw [this] at hget
  exact ⟨hij, hget, he, hadd⟩

/-- Callback accounting for the rename loop: the next ordinal advances by
one per record, a cancelled phase has at least one record, and record `k`'s
invocation returned `Continue` unless it is the last record of a cancelled
phase. -/
lemma find_renames_loop_calls (repo : Repository) (rw0 : Rewrites)
    (cb : Nat → Destination → Option Source → Action) (backing : List Nat) :
    ∀ (fuel : Nat) (items : List Item) (dest_ofs cnt : Nat) (r : RenamesResult),
      find_renames_loop repo rw0 cb backing fuel items dest_ofs cnt = r →
      r.next_cnt = cnt + r.records.length ∧
      (r.action = Action.Cancel → r.records ≠ []) ∧
      ∀ (k : Nat) (c0 : CallRecord), r.records[k]? = some c0 →
        cb (cnt + k) c0.dest c0.src =
          (if k + 1 = r.records.length ∧ r.action = Action.Cancel then Action.Cancel
           else Action.Continue) := by
  intro fuel
  induction fuel with
  | zero =>
    intro items dest_ofs cnt r h
    rw [find_renames_loop] at h
    subst h
    exact ⟨rfl, by simp, fun k c0 hk => by simp at hk⟩
  | succ f ih =>
    intro items dest_ofs cnt r h
    rw [find_renames_loop] at h
    cases hfd : findDest items dest_ofs with
    | none =>
      rw [hfd] at h
      subst h
      exact ⟨rfl, by simp, fun k c0 hk => by simp at hk⟩
    | some d =>
      obtain ⟨dest_idx, dest⟩ := d
      rw [hfd] at h
      dsimp only at h
      generalize hI :
        (match find_match items dest dest_idx rw0.percentage Kind.RenameTarget repo with
          | some (src_idx, _) => setEmitted (setEmitted items dest_idx) src_idx
          | none => setEmitted items dest_idx) = items2 at h
      generalize hS :
        (find_match items dest dest_idx rw0.percentage Kind.RenameTarget repo).map
          (fun q => mkSource q.2 backing) = srcEvt at h
      generalize hSI :
        (find_match items dest dest_idx rw0.percentage Kind.RenameTarget repo).map
          Prod.fst = srcIdx at h
      cases hcb : cb cnt (mkDestination dest backing) srcEvt with
      | Cancel =>
        rw [hcb] at h
        subst h
        refine ⟨rfl, by simp, ?_⟩
        intro k c0 hk
        cases k with
        | zero =>
          simp at hk
          subst hk
          simpa using hcb
        | succ k => simp at hk
      | Continue =>
        rw [hcb] at h
        subst h
        obtain ⟨hcnt, hcne, hcall⟩ := ih items2 (dest_idx + 1) (cnt + 1) _ rfl
        refine ⟨?_, by simp, ?_⟩
        · simp only [List.length_cons, hcnt]
          omega
        · intro k c0 hk
          cases k with
          | zero =>
            simp at hk
            subst hk
            rw [if_neg ?_]
            · simpa using hcb
            · rintro ⟨hlen, hact⟩
              simp only [List.length_cons] at hlen
              exact hcne hact (List.length_eq_zero.mp (by omega))
          | succ k =>
            simp only [List.getElem?_cons_succ] at hk
            have hthis := hcall k c0 hk
            have hidx : cnt + (k + 1) = (cnt + 1) + k := by omega
            rw [hidx, hthis]
            by_cases hc : k + 1 =
                (find_renames_loop repo rw0 cb backing f items2
                  (dest_idx + 1) (cnt + 1)).records.length ∧
                (find_renames_loop repo rw0 cb backing f items2
                  (dest_idx + 1) (cnt + 1)).action = Action.Cancel
            · rw [if_pos hc, if_pos]
              simp only [List.length_cons]
              exact ⟨by omega, hc.2⟩
            · rw [if_neg hc, if_neg]
              simp only [List.length_cons]
              rintro ⟨h1, h2⟩
              exact hc ⟨by omega, h2⟩

/-- Structural facts about the rename loop: the item vector keeps its
length, emitted flags are never cleared, every record's destination index
is in range, marked emitted in the final vector, and at least `dest_ofs`,
and the destination indices are strictly increasing. -/
lemma find_renames_loop_dest (repo : Repository) (rw0 : Rewrites)
    (cb : Nat → Destination → Option Source → Action) (backing : List Nat) :
    ∀ (fuel : Nat) (items : List Item) (dest_ofs cnt : Nat) (r : RenamesResult),
      find_renames_loop repo rw0 cb backing fuel items dest_ofs cnt = r →
      r.items.length = items.length ∧
      (∀ (i : Nat) (a : Item), items[i]? = some a → a.emitted = true →
        ∃ b, r.items[i]? = some b ∧ b.emitted = true) ∧
      (∀ c0 ∈ r.records, dest_ofs ≤ c0.destIdx ∧
        ∃ b, r.items[c0.destIdx]? = some b ∧ b.emitted = true) ∧
      List.Pairwise (· < ·) (r.records.map CallRecord.destIdx) := by
  intro fuel
  induction fuel with
  | zero =>
    intro items dest_ofs cnt r h
    rw [find_renames_loop] at h
    subst h
    exact ⟨rfl, fun i a hi ha => ⟨a, hi, ha⟩, by simp, by simp⟩
  | succ f ih =>
    intro items dest_ofs cnt r h
    rw [find_renames_loop] at h
    cases hfd : findDest items dest_ofs with
    | none =>
      rw [hfd] at h
      subst h
      exact ⟨rfl, fun i a hi ha => ⟨a, hi, ha⟩, by simp, by simp⟩
    | some d =>
      obtain ⟨dest_idx, dest⟩ := d
      rw [hfd] at h
      dsimp only at h
      obtain ⟨hofs, hdget, -, -⟩ := findDest_spec hfd
      cases hfm : find_match items dest dest_idx rw0.percentage Kind.RenameTarget repo with
      | none =>
        rw [hfm] at h
        dsimp only at h
        simp only [Option.map_none', Option.map_some'] at h
        have hlen2 : (setEmitted items dest_idx).length = items.length :=
          setEmitted_length items dest_idx
        have hmono2 : ∀ (i : Nat) (a : Item), items[i]? = some a → a.emitted = true →
            ∃ b, (setEmitted items dest_idx)[i]? = some b ∧ b.emitted = true :=
          fun i a hi ha => setEmitted_mono dest_idx hi ha
        have hdm : ∃ b, (setEmitted items dest_idx)[dest_idx]? = some b ∧
            b.emitted = true := by
          rw [setEmitted_getElem?, if_pos rfl, hdget]
          exact ⟨{ dest with emitted := true }, rfl, rfl⟩
        cases hcb : cb cnt (mkDestination dest backing) none with
        | Cancel =>
          rw [hcb] at h
          subst h
          refine ⟨hlen2, hmono2, ?_, by simp⟩
          intro c0 hc0
          simp at hc0
          subst hc0
          exact ⟨hofs, hdm⟩
        | Continue =>
          rw [hcb] at h
          subst h
          obtain ⟨hl, hm, hrec, hpw⟩ := ih (setEmitted items dest_idx)
            (dest_idx + 1) (cnt + 1) _ rfl
          refine ⟨by rw [hl, hlen2], ?_, ?_, ?_⟩
          · intro i a hi ha
            obtain ⟨b, hb, hbe⟩ := hmono2 i a hi ha
            exact hm i b hb hbe
          · intro c0 hc0
            rcases List.mem_cons.mp hc0 with hc0 | hc0
            · subst hc0
              obtain ⟨b, hb, hbe⟩ := hdm
              exact ⟨hofs, hm dest_idx b hb hbe⟩
            · obtain ⟨ho, hb⟩ := hrec c0 hc0
              exact ⟨by omega, hb⟩
          · rw [List.map_cons]
            refine List.Pairwise.cons ?_ hpw
            intro x hx
            simp only [List.mem_map] at hx
            obtain ⟨c0, hc0, hcx⟩ := hx
            have := (hrec c0 hc0).1
            dsimp only
            omega
      | some p0 =>
        obtain ⟨si, ss⟩ := p0
        rw [hfm] at h
        dsimp only at h
        simp only [Option.map_none', Option.map_some'] at h
        have hlen2 : (setEmitted (setEmitted items dest_idx) si).length = items.length := by
          rw [setEmitted_length, setEmitted_length]
        have hmono2 : ∀ (i : Nat) (a : Item), items[i]? = some a → a.emitted = true →
            ∃ b, (setEmitted (setEmitted items dest_idx) si)[i]? = some b ∧
              b.emitted = true := by
          intro i a hi ha
          obtain ⟨b, hb, hbe⟩ := setEmitted_mono dest_idx hi ha
          exact setEmitted_mono si hb hbe
        have hdm : ∃ b, (setEmitted (setEmitted items dest_idx) si)[dest_idx]? = some b ∧
            b.emitted = true := by
          have h1 : (setEmitted items dest_idx)[dest_idx]? =
              some { dest with emitted := true } := by
            rw [setEmitted_getElem?, if_pos rfl, hdget]
            rfl
          exact setEmitted_mono si h1 rfl
        cases hcb : cb cnt (mkDestination dest backing) (some (mkSource ss backing)) with
        | Cancel =>
          rw [hcb] at h
          subst h
          refine ⟨hlen2, hmono2, ?_, by simp⟩
          intro c0 hc0
          simp at hc0
          subst hc0
          exact ⟨hofs, hdm⟩
        | Continue =>
          rw [hcb] at h
          subst h
          obtain ⟨hl, hm, hrec, hpw⟩ := ih (setEmitted (setEmitted items dest_idx) si)
            (dest_idx + 1) (cnt + 1) _ rfl
          refine ⟨by rw [hl, hlen2], ?_, ?_, ?_⟩
          · intro i a hi ha
            obtain ⟨b, hb, hbe⟩ := hmono2 i a hi ha
            exact hm i b hb hbe
          · intro c0 hc0
            rcases List.mem_cons.mp hc0 with hc0 | hc0
            · subst hc0
              obtain ⟨b, hb, hbe⟩ := hdm
              exact ⟨hofs, hm dest_idx b hb hbe⟩
            · obtain ⟨ho, hb⟩ := hrec c0 hc0
              exact ⟨by omega, hb⟩
          · rw [List.map_cons]
            refine List.Pairwise.cons ?_ hpw
            intro x hx
            simp only [List.mem_map] at hx
            obtain ⟨c0, hc0, hcx⟩ := hx
            have := (hrec c0 hc0).1
            dsimp only
            omega

/-- Drain-phase accounting: ordinals advance one per surfaced item, every
drained index points at an unemitted item of the input vector, indices
strictly increase, and every non-final drain invocation returned
`Continue`. -/
lemma drain_loop_spec (cb : Nat → Destination → Option Source → Action)
    (backing : List Nat) :
    ∀ (l : List Item) (i cnt : Nat) (res : List DrainRecord × Nat),
      drain_loop cb backing l i cnt = res →
      res.2 = cnt + res.1.length ∧
      (∀ (k : Nat) (d : DrainRecord), res.1[k]? = some d →
        i ≤ d.idx ∧ (∃ it, l[d.idx - i]? = some it ∧ it.emitted = false) ∧
        (k + 1 < res.1.length → cb (cnt + k) d.dest none = Action.Continue)) ∧
      List.Pairwise (· < ·) (res.1.map DrainRecord.idx) := by
  intro l
  induction l with
  | nil =>
    intro i cnt res h
    rw [drain_loop] at h
    subst h
    exact ⟨rfl, fun k d hk => by simp at hk, by simp⟩
  | cons it rest ih =>
    intro i cnt res h
    rw [drain_loop] at h
    by_cases he : it.emitted = true
    · rw [if_pos he] at h
      obtain ⟨h2, hrec, hpw⟩ := ih (i + 1) cnt res h
      refine ⟨h2, ?_, hpw⟩
      intro k d hk
      obtain ⟨hi, ⟨w, hw, hwe⟩, hcont⟩ := hrec k d hk
      refine ⟨by omega, ⟨w, ?_, hwe⟩, hcont⟩
      have : d.idx - i = (d.idx - (i + 1)) + 1 := by omega
      rw [this]
      simpa using hw
    · rw [if_neg he] at h
      dsimp only at h
      have he' : it.emitted = false := by
        cases hb : it.emitted
        · rfl
        · exact absurd hb he
      cases hcb : cb cnt (mkDestination it backing) none with
      | Cancel =>
        rw [hcb] at h
        subst h
        refine ⟨rfl, ?_, by simp⟩
        intro k d hk
        cases k with
        | zero =>
          simp at hk
          subst hk
          exact ⟨le_refl i, ⟨it, by simp, he'⟩, by intro hcl; simp at hcl⟩
        | succ k => simp at hk
      | Continue =>
        rw [hcb] at h
        subst h
        obtain ⟨h2, hrec, hpw⟩ := ih (i + 1) (cnt + 1) _ rfl
        refine ⟨?_, ?_, ?_⟩
        · simp only [List.length_cons, h2]
          omega
        · intro k d hk
          cases k with
          | zero =>
            simp at hk
            subst hk
            exact ⟨le_refl i, ⟨it, by simp, he'⟩,
              by intro _; simpa using hcb⟩
          | succ k =>
            simp only [List.getElem?_cons_succ] at hk
            obtain ⟨hi, ⟨w, hw, hwe⟩, hcont⟩ := hrec k d hk
            refine ⟨by omega, ⟨w, ?_, hwe⟩, ?_⟩
            · have : d.idx - i = (d.idx - (i + 1)) + 1 := by omega
              rw [this]
              simpa using hw
            · intro hcl
              simp only [List.length_cons] at hcl
              have := hcont (by omega)
              have hidx : cnt + (k + 1) = (cnt + 1) + k := by omega
              rw [hidx]
              exact this
        · rw [List.map_cons]
          refine List.Pairwise.cons ?_ hpw
          intro x hx
          simp only [List.mem_map] at hx
          obtain ⟨d, hd, hdx⟩ := hx
          obtain ⟨k, hk⟩ := List.mem_iff_getElem?.mp hd
          have := (hrec k d hk).1
          dsimp only
          omega

/-- C7 (amended): with copy tracking off, `emit` always returns `Ok`
(`some`), cancellation stops the callback — every invocation except
possibly the overall last returned `Continue` — and no item is surfaced
twice *as a destination*: the destination indices of the rename phase and
of the drain phase are pairwise distinct.  (A rename *source* may be
re-surfaced by drain, due to the relative-index slip in the identity
pass.) -/
theorem emit_cancel_stops_and_ok (s : State)
    (cb : Nat → Destination → Option Source → Action) (repo : Repository)
    (hc : s.rewrites.copies = none) :
    ∃ r : EmitResult, emit s cb repo = some r ∧
      (∀ (k : Nat) (c0 : CallRecord), r.rename_records[k]? = some c0 →
        k + 1 < r.rename_records.length + r.drain_records.length →
        cb k c0.dest c0.src = Action.Continue) ∧
      (∀ (k : Nat) (d : DrainRecord), r.drain_records[k]? = some d →
        r.rename_records.length + k + 1 <
            r.rename_records.length + r.drain_records.length →
        cb (r.rename_records.length + k) d.dest none = Action.Continue) ∧
      (r.rename_records.map CallRecord.destIdx ++
        r.drain_records.map DrainRecord.idx).Nodup := by
  unfold emit find_renames
  dsimp only
  set rr := find_renames_loop repo s.rewrites cb s.path_backing
    ((sortItems s.items).length + 1) (sortItems s.items) 0 0 with hrr
  clear_value rr
  obtain ⟨hcnt, hcne, hcall⟩ :=
    find_renames_loop_calls repo s.rewrites cb s.path_backing _ _ _ _ rr hrr.symm
  obtain ⟨hlen, hmono, hrec, hpw⟩ :=
    find_renames_loop_dest repo s.rewrites cb s.path_backing _ _ _ _ rr hrr.symm
  have hNodupRen : (rr.records.map CallRecord.destIdx).Nodup :=
    hpw.nodup
  by_cases hA : rr.action = Action.Cancel
  · rw [if_pos hA]
    refine ⟨_, rfl, ?_, ?_, ?_⟩
    · intro k c0 hk hlt
      simp only [List.length_nil, Nat.add_zero] at hlt
      have := hcall k c0 hk
      rw [if_neg (by rintro ⟨h1, -⟩; omega)] at this
      simpa using this
    · intro k d hk
      simp at hk
    · simpa using hNodupRen
  · rw [if_neg hA, hc]
    dsimp only
    obtain ⟨hd2, hdrec, hdpw⟩ :=
      drain_loop_spec cb s.path_backing rr.items 0 rr.next_cnt _ rfl
    refine ⟨_, rfl, ?_, ?_, ?_⟩
    · intro k c0 hk _
      have := hcall k c0 hk
      rw [if_neg (by rintro ⟨-, h2⟩; exact hA h2)] at this
      simpa using this
    · intro k d hk hlt
      dsimp only at hk hlt ⊢
      have hlt2 : k + 1 <
          (drain_loop cb s.path_backing rr.items 0 rr.next_cnt).1.length := by omega
      have := (hdrec k d hk).2.2 hlt2
      rw [hcnt] at this
      simpa using this
    · dsimp only
      rw [List.nodup_append]
      refine ⟨hNodupRen, hdpw.nodup, ?_⟩
      intro x hx1 hx2
      simp only [List.mem_map] at hx1 hx2
      obtain ⟨c0, hc0, hcx⟩ := hx1
      obtain ⟨d, hd, hdx⟩ := hx2
      obtain ⟨-, ⟨b, hb, hbe⟩⟩ := hrec c0 hc0
      obtain ⟨k, hk⟩ := List.mem_iff_getElem?.mp hd
      obtain ⟨-, ⟨w, hw, hwe⟩, -⟩ := hdrec k d hk
      rw [Nat.sub_zero] at hw
      rw [hcx] at hb
      rw [hdx] at hw
      rw [hb] at hw
      injection hw with hw
      rw [← hw] at hwe
      rw [hbe] at hwe
      exact absurd hwe (by simp)

/-- Witness for C7 (amended): `emit` on a freshly created tracker with the
default (copies-off) configuration returns `Ok`. -/
theorem emit_cancel_stops_and_ok_witness :
    ∃ r : EmitResult, emit (State.new Rewrites.default) cbCont repo_unit = some r := by
  obtain ⟨r, hr, -, -, -⟩ :=
    emit_cancel_stops_and_ok (State.new Rewrites.default) cbCont repo_unit rfl
  exact ⟨r, hr⟩

end Gitoxide
